import Mathlib

/-! # sort-fuse: passthrough FUSE handlers (`src/main.cpp`)

A shallow embedding of the five request handlers of `src/main.cpp`
(`hello_getattr`, `hello_readdir`, `hello_opendir`, `hello_open`, `hello_read`)
and the properties of them stated in the specification.

Conventions of the embedding:

* C strings and `std::filesystem::path` values are `List Char` (the native
  pathname); `int`, `off_t`, `ssize_t` are `Int`; `size_t`, `mode_t`, `ino_t`,
  `uint64_t` are `Nat`, reduced modulo `2 ^ w` where a conversion can wrap.
* The C library and the kernel are the environment.  A directory stream `DIR`
  is the finite list of entries the kernel returns plus the index of the next
  entry; every entry carries its `d_off` cookie, which is what `telldir`
  reports after the entry was read and what `seekdir` accepts.
* A handler that mutates its arguments returns the new values; the system
  calls it issues on the resolved real path are returned as a trace.
-/

namespace SortFuse

/-! ## Data model -/

/-- The fields of `struct stat` (timestamps as seconds). -/
structure stat where
  st_dev : Nat
  st_ino : Nat
  st_nlink : Nat
  st_mode : Nat
  st_uid : Nat
  st_gid : Nat
  st_rdev : Nat
  st_size : Int
  st_blksize : Int
  st_blocks : Int
  st_atime : Int
  st_mtime : Int
  st_ctime : Int
deriving DecidableEq, Repr

/-- The result of `memset(&st, 0, sizeof(struct stat))`. -/
def stat_zero : stat :=
  { st_dev := 0, st_ino := 0, st_nlink := 0, st_mode := 0, st_uid := 0, st_gid := 0,
    st_rdev := 0, st_size := 0, st_blksize := 0, st_blocks := 0,
    st_atime := 0, st_mtime := 0, st_ctime := 0 }

/-- The fields of `struct dirent` the handlers read, and the `d_off` cookie. -/
structure dirent where
  d_ino : Nat
  d_off : Int
  d_type : Nat
  d_name : List Char
deriving DecidableEq, Repr

/-- A directory stream: the entries of the directory in the order the kernel
returns them, and the index of the entry the next `readdir` returns. -/
structure DIR where
  entries : List dirent
  pos : Nat
deriving DecidableEq, Repr

/-- `readdir(dp)`: the entry at the stream position, advancing the stream; `NULL`
(here `none`) at the end of the stream. -/
def readdir (dp : DIR) : DIR × Option dirent :=
  match dp.entries[dp.pos]? with
  | some e => ({ dp with pos := dp.pos + 1 }, some e)
  | none => (dp, none)

/-- `telldir(dp)`: `0` on a stream at its start, else the `d_off` cookie of the
entry read last. -/
def telldir (dp : DIR) : Int :=
  match dp.pos with
  | 0 => 0
  | p + 1 =>
    match dp.entries[p]? with
    | some e => e.d_off
    | none => 0

/-- `seekdir(dp, loc)`: `0` rewinds; a cookie positions the stream right after
the entry that carries it.  For a value that is no cookie of the stream POSIX
leaves the result unspecified; here the stream is then at its end. -/
def seekdir (dp : DIR) (loc : Int) : DIR :=
  if loc = 0 then { dp with pos := 0 }
  else { dp with pos := dp.entries.findIdx (fun e => decide (e.d_off = loc)) + 1 }

/-- A stream is well formed when its cookies are nonzero and pairwise distinct,
so that every `telldir` value names one position. -/
def DIR.wf (dp : DIR) : Prop :=
  (0 : Int) ∉ dp.entries.map dirent.d_off ∧ (dp.entries.map dirent.d_off).Nodup

instance (dp : DIR) : Decidable dp.wf := by
  unfold DIR.wf; exact inferInstance

/-- The `struct xmp_dirp` of the source: the stream, the pending entry (an entry
fetched from the stream and not yet taken by the sink) and the cursor. -/
structure xmp_dirp where
  dp : DIR
  entry : Option dirent
  offset : Int
deriving DecidableEq, Repr

/-- One call of the sink: the arguments `filler` receives after `buf`. -/
structure emission where
  name : List Char
  st : stat
  off : Int
  flags : Nat
deriving DecidableEq, Repr

/-- The type `fuse_fill_dir_t`, with the buffer `buf` of type `σ` passed as state:
the sink returns the new buffer and an `int`, nonzero to signal stop. -/
abbrev fuse_fill_dir_t (σ : Type) := σ → List Char → stat → Int → Nat → σ × Int

/-- The constant `FUSE_FILL_DIR_PLUS` of `fuse.h`. -/
def FUSE_FILL_DIR_PLUS : Nat := 2

/-- What a `hello_readdir` call leaves behind: its return value, the handle, the
sink buffer, the emissions the sink accepted (in order) and the emission on which
the sink signalled stop, if the call ended that way. -/
structure readdir_result (σ : Type) where
  ret : Int
  d : xmp_dirp
  buf : σ
  accepted : List emission
  rejected : Option emission
deriving DecidableEq

/-- Lines 124-129 of `hello_readdir`: the `stat` handed to the sink for entry `e`
under `fill_flags`.  The source leaves `st` uninitialised when the flag
`FUSE_FILL_DIR_PLUS` is set; `fill_flags` is the constant 0, so that branch is
never taken, and it is given the zeroed value here. -/
def entry_stat (e : dirent) (fill_flags : Nat) : stat :=
  if fill_flags &&& FUSE_FILL_DIR_PLUS = 0 then
    { stat_zero with st_ino := e.d_ino, st_mode := (e.d_type <<< 12) % 2 ^ 32 }
  else stat_zero

/-- The `while (1)` loop of `hello_readdir` (lines 112-136), one iteration per
unit of fuel; `none` when the fuel runs out before a `break`. -/
def readdir_loop {σ : Type} (filler : fuse_fill_dir_t σ) :
    Nat → xmp_dirp → σ → Option (readdir_result σ)
  | 0, _, _ => none
  | fuel + 1, d, buf =>
    let fill_flags : Nat := 0
    -- if (!d->entry) { d->entry = readdir(d->dp); if (!d->entry) break; }
    let d1 : xmp_dirp :=
      match d.entry with
      | some _ => d
      | none => { d with dp := (readdir d.dp).1, entry := (readdir d.dp).2 }
    match d1.entry with
    | none => some { ret := 0, d := d1, buf := buf, accepted := [], rejected := none }
    | some e =>
      let st := entry_stat e fill_flags
      let nextoff := telldir d1.dp
      let em : emission := { name := e.d_name, st := st, off := nextoff, flags := fill_flags }
      let fr := filler buf e.d_name st nextoff fill_flags
      if fr.2 ≠ 0 then
        some { ret := 0, d := d1, buf := fr.1, accepted := [], rejected := some em }
      else
        (readdir_loop filler fuel { d1 with entry := none, offset := nextoff } fr.1).map
          (fun r => { r with accepted := em :: r.accepted })

/-- Lines 106-111 of `hello_readdir`: reposition the stream when the requested
offset is not the stored cursor. -/
def readdir_reposition (offset : Int) (d : xmp_dirp) : xmp_dirp :=
  if offset ≠ d.offset then
    { dp := seekdir d.dp offset, entry := none, offset := offset }
  else d

/-- The handler `hello_readdir` on the handle `d = get_dirp(fi)`.  The loop runs
with one unit of fuel per entry of the stream and two more (a pending entry and
the final `readdir` that returns `NULL`). -/
def hello_readdir {σ : Type} (filler : fuse_fill_dir_t σ) (buf : σ) (offset : Int)
    (d : xmp_dirp) : Option (readdir_result σ) :=
  readdir_loop filler (d.dp.entries.length + 2) (readdir_reposition offset d) buf

/-! ## Directory enumeration: auxiliary definitions -/

/-- The emission `hello_readdir` produces for entry `e` when the stream stands
right after `e`: its name, its lazy metadata, its cookie as next offset. -/
def emit_of (e : dirent) : emission :=
  { name := e.d_name, st := entry_stat e 0, off := e.d_off, flags := 0 }

/-- Lines 118-123 of the loop body: fetch an entry when none is pending. -/
def fetch (d : xmp_dirp) : xmp_dirp :=
  match d.entry with
  | some _ => d
  | none => { d with dp := (readdir d.dp).1, entry := (readdir d.dp).2 }

/-- The emission of the loop body for the pending entry `e` of handle `d`. -/
def emit_at (d : xmp_dirp) (e : dirent) : emission :=
  { name := e.d_name, st := entry_stat e 0, off := telldir d.dp, flags := 0 }

/-- Every emission of a call in order: the accepted ones, then the one on which
the sink signalled stop. -/
def readdir_result.emitted {σ : Type} (r : readdir_result σ) : List emission :=
  r.accepted ++ r.rejected.toList

/-- The offset a caller that follows the protocol requests next: the next offset
of the last entry the sink accepted, else the offset it requested before. -/
def next_request (off : Int) (accepted : List emission) : Int :=
  match accepted.getLast? with
  | some em => em.off
  | none => off

/-- The pending entry, when there is one, is the entry the stream read last. -/
def pending_ok (d : xmp_dirp) : Prop :=
  ∀ e, d.entry = some e → ∃ p, d.dp.pos = p + 1 ∧ d.dp.entries[p]? = some e

/-- The index of the first entry not yet taken by the sink: the stream position,
one less when an entry is pending. -/
def lpos (d : xmp_dirp) : Nat :=
  match d.entry with
  | some _ => d.dp.pos - 1
  | none => d.dp.pos

/-- The handle invariant: the pending entry is the one read last, and the stored
cursor names the position of the first entry not yet taken by the sink. -/
def handle_inv (d : xmp_dirp) : Prop :=
  pending_ok d ∧ (seekdir d.dp d.offset).pos = lpos d

/-- The handle `hello_opendir` binds for a stream that was just opened. -/
def fresh_handle (entries : List dirent) : xmp_dirp :=
  { dp := { entries := entries, pos := 0 }, entry := none, offset := 0 }

/-- The handle states the handlers produce on a directory with the given entries:
the handle of a fresh stream, and every handle a `hello_readdir` call leaves,
whatever the sink, its buffer and the requested offset. -/
inductive reachable (entries : List dirent) : xmp_dirp → Prop
  | opened : reachable entries (fresh_handle entries)
  | step {σ : Type} (filler : fuse_fill_dir_t σ) (buf : σ) (offset : Int)
      (d : xmp_dirp) (r : readdir_result σ) :
      reachable entries d → hello_readdir filler buf offset d = some r →
      reachable entries r.d

/-- A sequence of `hello_readdir` calls on one handle by a caller that follows
the protocol: one call per sink buffer of `bufs`, the first call with offset
`off`, each later call with the next offset of the last entry the sink accepted
so far.  The results of the calls, in order. -/
def readdir_calls {σ : Type} (filler : fuse_fill_dir_t σ) :
    xmp_dirp → Int → List σ → Option (List (readdir_result σ))
  | _, _, [] => some []
  | d, off, b :: bs =>
    match hello_readdir filler b off d with
    | none => none
    | some r =>
      (readdir_calls filler r.d (next_request off r.accepted) bs).map (fun rs => r :: rs)

/-- The emissions the sink accepted across a sequence of calls, in order. -/
def all_accepted {σ : Type} : List (readdir_result σ) → List emission
  | [] => []
  | r :: rs => r.accepted ++ all_accepted rs

/-! ## Paths (`std::filesystem::path` on a POSIX system) -/

/-- `path::is_absolute()`: a POSIX path is absolute when it has a root directory. -/
def path_is_absolute (p : List Char) : Bool :=
  match p with
  | '/' :: _ => true
  | _ => false

/-- `operator/` of `std::filesystem::path` ([fs.path.append]): an absolute
right-hand side replaces the left-hand side; otherwise a separator is added
when the left-hand side has a filename, and the right-hand side is appended. -/
def path_append (p q : List Char) : List Char :=
  if path_is_absolute q then q
  else if p = [] ∨ p.getLast? = some '/' then p ++ q
  else p ++ '/' :: q

/-- The filename elements of a relative pathname: the pieces between
separators, runs of separators counting once, with an empty last element after
a trailing separator. -/
def split_names : List Char → List Char → List (List Char)
  | [], cur => [cur]
  | c :: rest, cur =>
    if c = '/' then
      (if cur = [] then split_names rest [] else cur :: split_names rest [])
    else split_names rest (cur ++ [c])

/-- The elements a `path` iterates over: the root directory of an absolute path,
then the filename elements. -/
def path_elems (p : List Char) : List (List Char) :=
  let rel := p.dropWhile (fun c => c = '/')
  let names := if rel = [] then [] else split_names rel []
  if path_is_absolute p then ['/'] :: names else names

/-- The result of `std::mismatch` on two element sequences: what is left of each
after their common beginning. -/
def elems_mismatch : List (List Char) → List (List Char) → List (List Char) × List (List Char)
  | x :: xs, y :: ys => if x = y then elems_mismatch xs ys else (x :: xs, y :: ys)
  | xs, ys => (xs, ys)

/-- The counter `n` of `path::lexically_relative`: one down for each dot-dot
element, one up for each element that is neither empty nor dot. -/
def base_depth : List (List Char) → Int
  | [] => 0
  | x :: xs =>
    (if x = ['.', '.'] then -1 else if x ≠ [] ∧ x ≠ ['.'] then 1 else 0) + base_depth xs

/-- `path::lexically_relative` ([fs.path.gen]) on a POSIX system. -/
def lexically_relative (p base : List Char) : List Char :=
  if path_is_absolute p ≠ path_is_absolute base then []
  else
    let ab := elems_mismatch (path_elems p) (path_elems base)
    if ab.1 = [] ∧ ab.2 = [] then ['.']
    else
      let n := base_depth ab.2
      if n = 0 ∧ (ab.1 = [] ∨ ab.1.head? = some []) then ['.']
      else if 0 ≤ n then
        (List.replicate n.toNat ['.', '.'] ++ ab.1).foldl path_append []
      else []

/-! ## The operating system and the FUSE request -/

/-- A value of `errno` after a failed call: a positive number. -/
abbrev errno_t := { n : Nat // 0 < n }

/-- The outcome of `opendir`: a new stream over the entries of the directory,
or `NULL` with `errno` set. -/
inductive opendir_result where
  | ok (entries : List dirent)
  | fail (e : errno_t)
deriving DecidableEq

/-- What an open file descriptor refers to: a file with its contents, or an
object on which reading fails with the given `errno`. -/
inductive open_file where
  | contents (bytes : List Char)
  | unreadable (e : errno_t)
deriving DecidableEq

/-- The environment of the handlers: the answers of the C++ library and of the
kernel to the calls the handlers make.  `fs_exists` is `std::filesystem::exists`
where it returns (it throws on errors other than a missing path), `sys_stat`
gives the metadata `stat` stores on success, `sys_open` the return value of
`open`, `malloc` the address `malloc` returns, `fdtable` what each open
descriptor refers to. -/
structure OS where
  current_path : List Char
  weakly_canonical : List Char → List Char
  fs_exists : List Char → Bool
  sys_stat : List Char → Option stat
  sys_opendir : List Char → opendir_result
  sys_open : List Char → Nat → Int
  malloc : Nat
  fdtable : Int → Option open_file

/-- The calls on the real filesystem a handler makes, as recorded in its trace. -/
inductive syscall where
  | fs_exists (path : List Char)
  | stat (path : List Char)
  | opendir (path : List Char)
  | open_ (path : List Char) (flags : Nat)
  | pread (fd : Int) (size : Nat) (offset : Int)
deriving DecidableEq, Repr

/-- Whether a call is one of the underlying calls `stat`, `opendir`, `open`. -/
def syscall.is_underlying : syscall → Bool
  | .stat _ => true
  | .opendir _ => true
  | .open_ _ _ => true
  | _ => false

/-- The global `options` of the source. -/
structure options_t where
  filename : List Char
  contents : List Char
  target : List Char
  pwd : List Char
  show_help : Int

/-- The value of `fi->fh`: a plain number, or the address of a `struct xmp_dirp`
allocated by `hello_opendir`, carried together with the object it points to. -/
inductive fh_t where
  | raw (v : Nat)
  | dirp (addr : Nat) (d : xmp_dirp)
deriving DecidableEq

/-- The fields of `struct fuse_file_info` the handlers use. -/
structure fuse_file_info where
  flags : Nat
  fh : fh_t
deriving DecidableEq

/-- The number stored in `fi->fh`. -/
def fh_t.value : fh_t → Nat
  | .raw v => v
  | .dirp addr _ => addr

/-- The function `get_dirp`: the `struct xmp_dirp` that `fi->fh` points to. -/
def get_dirp (fi : fuse_file_info) : Option xmp_dirp :=
  match fi.fh with
  | .dirp _ d => some d
  | .raw _ => none

def ENOENT : Int := 2
def EACCES : Int := 13
def O_RDONLY : Nat := 0
def O_ACCMODE : Nat := 3
def S_IFDIR : Nat := 0o040000

/-- Conversion of an integer to `int` (32 bits, two's complement). -/
def to_int32 (x : Int) : Int := (x + 2 ^ 31) % 2 ^ 32 - 2 ^ 31

/-- Conversion of an integer to `uint64_t`. -/
def to_uint64 (x : Int) : Nat := (x % 2 ^ 64).toNat

/-- `std::filesystem::absolute`: an absolute path as it is, a relative one
appended to the current directory.  (On the empty path the library throws; the
handlers pass `pwd / target`, which is empty only when both options are.) -/
def fs_absolute (os : OS) (p : List Char) : List Char :=
  if path_is_absolute p then p else path_append os.current_path p

/-- `std::filesystem::relative(p, base)` ([fs.op.relative]):
`weakly_canonical(p).lexically_relative(weakly_canonical(base))`. -/
def fs_relative (os : OS) (p base : List Char) : List Char :=
  lexically_relative (os.weakly_canonical p) (os.weakly_canonical base)

/-- The most bytes one Linux `read`/`pread` call transfers (`MAX_RW_COUNT`). -/
def MAX_RW_COUNT : Nat := 0x7ffff000

/-- `pread(fd, buf, size, offset)`: the return value and the bytes stored in
`buf`.  Fails (`-1`) on a descriptor that is not open, on an unreadable object
and on a negative offset; on a file it transfers the bytes from `offset` on, at
most `size` of them and at most `MAX_RW_COUNT`. -/
def sys_pread (os : OS) (fd : Int) (size : Nat) (offset : Int) : Int × List Char :=
  match os.fdtable fd with
  | none => (-1, [])
  | some (.unreadable _) => (-1, [])
  | some (.contents bytes) =>
    if offset < 0 then (-1, [])
    else
      let data := (bytes.drop offset.toNat).take (min size MAX_RW_COUNT)
      ((data.length : Int), data)

/-- What `hello_getattr` leaves behind: its return value, `*stbuf`, the path it
printed, and the calls it made on the real path. -/
structure getattr_result where
  ret : Int
  stbuf : stat
  printed : List Char
  trace : List syscall
deriving DecidableEq

/-- The handler `hello_getattr`. -/
def hello_getattr (os : OS) (options : options_t) (path : List Char)
    (_fi : fuse_file_info) : getattr_result :=
  let realpath := path_append (fs_absolute os (path_append options.pwd options.target))
    (fs_relative os path ['/'])
  let res : Int := 0
  let stbuf := stat_zero
  if path = ['/'] then
    { ret := res, stbuf := { stbuf with st_mode := S_IFDIR ||| 0o755, st_nlink := 2 },
      printed := realpath, trace := [] }
  else if os.fs_exists realpath then
    { ret := res, stbuf := (os.sys_stat realpath).getD stbuf,
      printed := realpath, trace := [.fs_exists realpath, .stat realpath] }
  else
    { ret := -ENOENT, stbuf := stbuf, printed := realpath, trace := [.fs_exists realpath] }

/-- What `hello_opendir` and `hello_open` leave behind: the return value, `*fi`,
and the calls made on the real path. -/
structure open_result where
  ret : Int
  fi : fuse_file_info
  trace : List syscall
deriving DecidableEq

/-- The handler `hello_opendir`.  `malloc` is taken to succeed; `errno` is read
after `free(d)`, which leaves it as `opendir` set it. -/
def hello_opendir (os : OS) (options : options_t) (path : List Char)
    (fi : fuse_file_info) : open_result :=
  let rootpath := fs_absolute os (path_append options.pwd options.target)
  let realpath := path_append rootpath (fs_relative os path ['/'])
  if ¬ os.fs_exists realpath then
    { ret := -ENOENT, fi := fi, trace := [.fs_exists realpath] }
  else if fi.flags &&& O_ACCMODE ≠ O_RDONLY then
    { ret := -EACCES, fi := fi, trace := [.fs_exists realpath] }
  else
    match os.sys_opendir realpath with
    | .fail e =>
      { ret := -(e.val : Int), fi := fi, trace := [.fs_exists realpath, .opendir realpath] }
    | .ok entries =>
      let d : xmp_dirp := { dp := { entries := entries, pos := 0 }, entry := none, offset := 0 }
      { ret := 0, fi := { fi with fh := .dirp os.malloc d },
        trace := [.fs_exists realpath, .opendir realpath] }

/-- The handler `hello_open`. -/
def hello_open (os : OS) (options : options_t) (path : List Char)
    (fi : fuse_file_info) : open_result :=
  let rootpath := fs_absolute os (path_append options.pwd options.target)
  let realpath := path_append rootpath (fs_relative os path ['/'])
  if ¬ os.fs_exists realpath then
    { ret := -ENOENT, fi := fi, trace := [.fs_exists realpath] }
  else if fi.flags &&& O_ACCMODE ≠ O_RDONLY then
    { ret := -EACCES, fi := fi, trace := [.fs_exists realpath] }
  else
    { ret := 0, fi := { fi with fh := .raw (to_uint64 (os.sys_open realpath O_RDONLY)) },
      trace := [.fs_exists realpath, .open_ realpath O_RDONLY] }

/-- What `hello_read` leaves behind: the return value, the bytes stored in
`buf`, `*fi`, and the call made. -/
structure read_result where
  ret : Int
  buf : List Char
  fi : fuse_file_info
  trace : List syscall
deriving DecidableEq

/-- The handler `hello_read`: `fi->fh` is converted to the `int` descriptor, the
`ssize_t` result of `pread` to the `int` variable `retstat`. -/
def hello_read (os : OS) (_path : List Char) (size : Nat) (offset : Int)
    (fi : fuse_file_info) : read_result :=
  let fd := to_int32 fi.fh.value
  let rd := sys_pread os fd size offset
  let retstat := to_int32 rd.1
  let retstat := if retstat < 0 then -1 else retstat
  { ret := retstat, buf := rd.2, fi := fi, trace := [.pread fd size offset] }

/-- The real path the handlers resolve a virtual path to. -/
def real_path (os : OS) (options : options_t) (path : List Char) : List Char :=
  path_append (fs_absolute os (path_append options.pwd options.target))
    (fs_relative os path ['/'])

/-- The scenario of the specification: the working directory `/`, the target
root `/data`. -/
def data_options : options_t :=
  { filename := "hello".toList, contents := "Hello World!\n".toList,
    target := "data".toList, pwd := "/".toList, show_help := 0 }

/-- A system on which no path exists and every call fails. -/
def empty_os : OS :=
  { current_path := "/".toList, weakly_canonical := fun p => p,
    fs_exists := fun _ => false, sys_stat := fun _ => none,
    sys_opendir := fun _ => .fail ⟨2, by decide⟩, sys_open := fun _ _ => -1,
    malloc := 4096, fdtable := fun _ => none }

/-- A system on which `/data/.` is a directory with the entries `abc` and
`/data/notes.txt` is a file with contents `"hi\n"`, open as descriptor 3; every
path exists, and `open` fails on every path. -/
def data_os : OS :=
  { current_path := "/".toList, weakly_canonical := fun p => p,
    fs_exists := fun _ => true, sys_stat := fun _ => none,
    sys_opendir := fun p =>
      if p = "/data/.".toList then
        .ok [ { d_ino := 11, d_off := 101, d_type := 8, d_name := ['a'] },
              { d_ino := 12, d_off := 205, d_type := 8, d_name := ['b'] },
              { d_ino := 13, d_off := 2147483647, d_type := 4, d_name := ['c'] } ]
      else .fail ⟨20, by decide⟩,
    sys_open := fun _ _ => -1,
    malloc := 4096,
    fdtable := fun fd => if fd = 3 then some (.contents "hi\n".toList) else none }

/-- A request with access mode `O_RDONLY`. -/
def fi_rdonly : fuse_file_info := { flags := 0, fh := .raw 0 }

/-- A request with access mode `O_WRONLY`. -/
def fi_wronly : fuse_file_info := { flags := 1, fh := .raw 0 }

/-- A request on the open file with descriptor 3. -/
def fi_fd3 : fuse_file_info := { flags := 0, fh := .raw 3 }

/-! ### A concrete directory and a concrete sink -/

/-- A directory with the three entries `a`, `b`, `c`. -/
def abc : List dirent :=
  [ { d_ino := 11, d_off := 101, d_type := 8, d_name := ['a'] },
    { d_ino := 12, d_off := 205, d_type := 8, d_name := ['b'] },
    { d_ino := 13, d_off := 2147483647, d_type := 4, d_name := ['c'] } ]

/-- A sink whose buffer is the number of entries it still has room for. -/
def room_filler : fuse_fill_dir_t Nat :=
  fun room _ _ _ _ => if room = 0 then (0, 1) else (room - 1, 0)

/-- The result of the first call on `abc` with room for one entry: `a` is
accepted, `b` is refused and stays pending. -/
def abc_first_call : readdir_result Nat :=
  { ret := 0,
    d := { dp := { entries := abc, pos := 2 },
           entry := some { d_ino := 12, d_off := 205, d_type := 8, d_name := ['b'] },
           offset := 101 },
    buf := 0,
    accepted := [emit_of { d_ino := 11, d_off := 101, d_type := 8, d_name := ['a'] }],
    rejected := some (emit_of { d_ino := 12, d_off := 205, d_type := 8, d_name := ['b'] }) }

/-! ## Directory enumeration: the loop -/

theorem readdir_loop_succ {σ : Type} (filler : fuse_fill_dir_t σ) (fuel : Nat)
    (d : xmp_dirp) (buf : σ) :
    readdir_loop filler (fuel + 1) d buf =
      match (fetch d).entry with
      | none => some { ret := 0, d := fetch d, buf := buf, accepted := [], rejected := none }
      | some e =>
        if (filler buf e.d_name (entry_stat e 0) (telldir (fetch d).dp) 0).2 ≠ 0 then
          some { ret := 0, d := fetch d,
                 buf := (filler buf e.d_name (entry_stat e 0) (telldir (fetch d).dp) 0).1,
                 accepted := [], rejected := some (emit_at (fetch d) e) }
        else
          (readdir_loop filler fuel
              { fetch d with entry := none, offset := telldir (fetch d).dp }
              (filler buf e.d_name (entry_stat e 0) (telldir (fetch d).dp) 0).1).map
            (fun r => { r with accepted := emit_at (fetch d) e :: r.accepted }) := by
  rfl

theorem fetch_pending (d : xmp_dirp) (e : dirent) (h : d.entry = some e) : fetch d = d := by
  simp [fetch, h]

theorem fetch_end (d : xmp_dirp) (h : d.entry = none) (hp : d.dp.entries[d.dp.pos]? = none) :
    fetch d = d := by
  cases d with
  | mk dp entry offset =>
    simp only at h hp
    subst h
    simp [fetch, readdir, hp]

theorem fetch_read (d : xmp_dirp) (e : dirent) (h : d.entry = none)
    (hp : d.dp.entries[d.dp.pos]? = some e) :
    fetch d = { dp := { d.dp with pos := d.dp.pos + 1 }, entry := some e, offset := d.offset } := by
  cases d with
  | mk dp entry offset =>
    simp only at h hp
    subst h
    simp [fetch, readdir, hp]

theorem next_request_cons (off : Int) (em : emission) (l : List emission) :
    next_request off (em :: l) = next_request em.off l := by
  cases l with
  | nil => simp [next_request]
  | cons a t =>
    simp only [next_request, List.getLast?_cons_cons]
    cases h : (a :: t).getLast? with
    | none => simp at h
    | some x => rfl

/-- Facts about the fetch step that hold for every handle. -/
theorem fetch_facts (d : xmp_dirp) :
    (fetch d).dp.entries = d.dp.entries ∧ (fetch d).offset = d.offset ∧
    (d.dp.entries.length - (fetch d).dp.pos + 1
        ≤ d.dp.entries.length - d.dp.pos + (if d.entry.isSome then 1 else 0)
      ∨ (fetch d).entry = none) := by
  cases h : d.entry with
  | some e =>
    rw [fetch_pending d e h]
    simp [h]
  | none =>
    cases hp : d.dp.entries[d.dp.pos]? with
    | none =>
      rw [fetch_end d h hp]
      simp [h]
    | some e =>
      rw [fetch_read d e h hp]
      have hlt : d.dp.pos < d.dp.entries.length := by
        rcases List.getElem?_eq_some_iff.mp hp with ⟨hl, _⟩
        exact hl
      refine ⟨rfl, rfl, Or.inl ?_⟩
      simp
      omega

/-- The loop returns whenever its fuel exceeds the number of entries left in the
stream plus one for a pending entry; the cursor it leaves is the next offset of
the last accepted emission (the cursor at entry when there is none); the pending
slot is occupied exactly when the sink signalled stop, and then by the entry of
the refused emission. -/
theorem readdir_loop_spec {σ : Type} (filler : fuse_fill_dir_t σ) :
    ∀ (fuel : Nat) (d : xmp_dirp) (buf : σ),
      d.dp.entries.length - d.dp.pos + (if d.entry.isSome then 1 else 0) < fuel →
      ∃ r, readdir_loop filler fuel d buf = some r ∧ r.ret = 0 ∧
        r.d.dp.entries = d.dp.entries ∧
        r.d.offset = next_request d.offset r.accepted ∧
        (r.rejected = none → r.d.entry = none) ∧
        (∀ em, r.rejected = some em → ∃ e, r.d.entry = some e ∧ em = emit_at r.d e) := by
  intro fuel
  induction fuel with
  | zero => intro d buf h; omega
  | succ n ih =>
    intro d buf hfuel
    rw [readdir_loop_succ]
    obtain ⟨hent, hoff, hmeas⟩ := fetch_facts d
    cases he : (fetch d).entry with
    | none =>
      refine ⟨_, rfl, rfl, hent, ?_, ?_, ?_⟩
      · simp [next_request, hoff]
      · intro _; exact he
      · intro em hem; simp at hem
    | some e =>
      simp only
      by_cases hstop : (filler buf e.d_name (entry_stat e 0) (telldir (fetch d).dp) 0).2 ≠ 0
      · rw [if_pos hstop]
        refine ⟨_, rfl, rfl, hent, ?_, ?_, ?_⟩
        · simp [next_request, hoff]
        · intro h; simp at h
        · intro em hem
          refine ⟨e, he, ?_⟩
          simp only [Option.some.injEq] at hem
          exact hem.symm
      · rw [if_neg hstop]
        have hm : (fetch d).dp.entries.length - (fetch d).dp.pos + 0 < n := by
          rcases hmeas with h | h
          · rw [hent]; omega
          · rw [h] at he; simp at he
        obtain ⟨r, hr, hret, hents, hcur, hnone, hsome⟩ :=
          ih { fetch d with entry := none, offset := telldir (fetch d).dp }
            (filler buf e.d_name (entry_stat e 0) (telldir (fetch d).dp) 0).1
            (by simpa using hm)
        rw [hr]
        refine ⟨_, rfl, hret, ?_, ?_, hnone, hsome⟩
        · simp only at hents ⊢
          rw [hents, hent]
        · simp only at hcur ⊢
          rw [next_request_cons, hcur]
          rfl

/-! ## Directory enumeration: which entries the loop delivers -/

theorem fetch_some_ok (d : xmp_dirp) (e : dirent) (hok : pending_ok d)
    (he : (fetch d).entry = some e) :
    (fetch d).dp.pos = lpos d + 1 ∧ d.dp.entries[lpos d]? = some e ∧
      telldir (fetch d).dp = e.d_off := by
  cases h : d.entry with
  | some e0 =>
    rw [fetch_pending d e0 h] at he ⊢
    rw [h] at he
    simp only [Option.some.injEq] at he
    subst he
    obtain ⟨p, hp, hpe⟩ := hok e0 h
    simp [lpos, h, hp, hpe, telldir]
  | none =>
    cases hp : d.dp.entries[d.dp.pos]? with
    | none =>
      rw [fetch_end d h hp, h] at he
      simp at he
    | some e1 =>
      rw [fetch_read d e1 h hp] at he ⊢
      simp only [Option.some.injEq] at he
      subst he
      simp [lpos, h, hp, telldir]

theorem fetch_none_end (d : xmp_dirp) (he : (fetch d).entry = none) :
    fetch d = d ∧ d.entry = none ∧ d.dp.entries.length ≤ d.dp.pos := by
  cases h : d.entry with
  | some e0 =>
    rw [fetch_pending d e0 h, h] at he
    simp at he
  | none =>
    cases hp : d.dp.entries[d.dp.pos]? with
    | none =>
      refine ⟨fetch_end d h hp, rfl, ?_⟩
      exact List.getElem?_eq_none_iff.mp hp
    | some e1 =>
      rw [fetch_read d e1 h hp] at he
      simp at he

/-- From a handle whose pending entry is the one read last, the loop delivers
the entries of the stream from the first one not yet taken, in order and
without a gap, each with its own cookie as next offset. -/
theorem readdir_loop_content {σ : Type} (filler : fuse_fill_dir_t σ) :
    ∀ (fuel : Nat) (d : xmp_dirp) (buf : σ) (r : readdir_result σ),
      pending_ok d → readdir_loop filler fuel d buf = some r →
      pending_ok r.d ∧ lpos r.d = lpos d + r.accepted.length ∧
      r.accepted = ((d.dp.entries.drop (lpos d)).take r.accepted.length).map emit_of ∧
      (r.rejected = none → d.dp.entries.length ≤ lpos r.d) ∧
      (∀ em, r.rejected = some em →
        ∃ e, d.dp.entries[lpos r.d]? = some e ∧ em = emit_of e) := by
  intro fuel
  induction fuel with
  | zero => intro d buf r _ h; simp [readdir_loop] at h
  | succ n ih =>
    intro d buf r hok hrun
    rw [readdir_loop_succ] at hrun
    cases he : (fetch d).entry with
    | none =>
      rw [he] at hrun
      simp only [Option.some.injEq] at hrun
      subst hrun
      obtain ⟨hfd, hnone, hlen⟩ := fetch_none_end d he
      simp only [hfd]
      refine ⟨hok, by simp, by simp, ?_, ?_⟩
      · intro _; simpa [lpos, hnone] using hlen
      · intro em hem; simp at hem
    | some e =>
      rw [he] at hrun
      simp only at hrun
      obtain ⟨hpos, hget, htell⟩ := fetch_some_ok d e hok he
      have hemit : emit_at (fetch d) e = emit_of e := by
        simp [emit_at, emit_of, htell]
      have hfok : pending_ok (fetch d) := by
        intro e2 he2
        rw [he] at he2
        simp only [Option.some.injEq] at he2
        subst he2
        exact ⟨lpos d, hpos, by rw [(fetch_facts d).1]; exact hget⟩
      have hflpos : lpos (fetch d) = lpos d := by
        simp [lpos, he, hpos]
      by_cases hstop : (filler buf e.d_name (entry_stat e 0) (telldir (fetch d).dp) 0).2 ≠ 0
      · rw [if_pos hstop] at hrun
        simp only [Option.some.injEq] at hrun
        subst hrun
        refine ⟨hfok, by simp [hflpos], by simp, ?_, ?_⟩
        · intro h; simp at h
        · intro em hem
          simp only [Option.some.injEq] at hem
          exact ⟨e, by simpa [hflpos] using hget, by rw [← hem, hemit]⟩
      · rw [if_neg hstop] at hrun
        cases hrec : readdir_loop filler n
            { fetch d with entry := none, offset := telldir (fetch d).dp }
            (filler buf e.d_name (entry_stat e 0) (telldir (fetch d).dp) 0).1 with
        | none => rw [hrec] at hrun; simp at hrun
        | some r1 =>
          rw [hrec] at hrun
          simp only [Option.map_some', Option.map, Option.some.injEq] at hrun
          subst hrun
          have hok1 : pending_ok { fetch d with entry := none, offset := telldir (fetch d).dp } := by
            intro e2 he2; simp at he2
          obtain ⟨hokr, hlp, hacc, hnone, hsome⟩ := ih _ _ r1 hok1 hrec
          have hl1 : lpos { fetch d with entry := none, offset := telldir (fetch d).dp }
              = lpos d + 1 := by
            simp [lpos, hpos]
          have hents : (fetch d).dp.entries = d.dp.entries := (fetch_facts d).1
          rw [hl1] at hlp hacc
          simp only [hents] at hacc hnone hsome
          have hlt : lpos d < d.dp.entries.length := by
            rcases List.getElem?_eq_some_iff.mp hget with ⟨hl, _⟩
            exact hl
          have hge : d.dp.entries[lpos d] = e := by
            rcases List.getElem?_eq_some_iff.mp hget with ⟨_, h2⟩
            exact h2
          refine ⟨hokr, ?_, ?_, hnone, hsome⟩
          · simp only [List.length_cons]; omega
          · simp only [List.length_cons]
            rw [List.drop_eq_getElem_cons hlt, List.take_succ_cons, List.map_cons, hge,
              ← hacc, hemit]

/-! ## Directory enumeration: one call -/

theorem seekdir_entries (dp : DIR) (loc : Int) : (seekdir dp loc).entries = dp.entries := by
  unfold seekdir
  split <;> rfl

theorem seekdir_pos_congr (dp dp2 : DIR) (loc : Int) (h : dp2.entries = dp.entries) :
    (seekdir dp2 loc).pos = (seekdir dp loc).pos := by
  unfold seekdir
  split
  · rfl
  · simp [h]

/-- On a well-formed stream, seeking to the cookie of entry `i` puts the stream
right after entry `i`. -/
theorem seekdir_cookie (dp : DIR) (hwf : dp.wf) (i : Nat) (e : dirent)
    (hi : dp.entries[i]? = some e) : (seekdir dp e.d_off).pos = i + 1 := by
  obtain ⟨hlt, hge⟩ := List.getElem?_eq_some_iff.mp hi
  have hmem : e ∈ dp.entries := by
    rw [← hge]; exact List.getElem_mem hlt
  have hne : e.d_off ≠ 0 := by
    intro h0
    apply hwf.1
    rw [← h0]
    exact List.mem_map_of_mem _ hmem
  unfold seekdir
  rw [if_neg hne]
  simp only [Nat.add_right_cancel_iff]
  rw [List.findIdx_eq hlt]
  refine ⟨by simp [hge], ?_⟩
  intro j hji
  have hjl : j < dp.entries.length := Nat.lt_trans hji hlt
  simp only [decide_eq_false_iff_not]
  intro heq
  have hnd := hwf.2
  have hjm : j < (dp.entries.map dirent.d_off).length := by simpa using hjl
  have him : i < (dp.entries.map dirent.d_off).length := by simpa using hlt
  have hinj : (dp.entries.map dirent.d_off)[j] = (dp.entries.map dirent.d_off)[i] := by
    simp [heq, hge]
  have := (List.Nodup.getElem_inj_iff hnd).mp hinj
  omega

theorem reposition_entries (offset : Int) (d : xmp_dirp) :
    (readdir_reposition offset d).dp.entries = d.dp.entries := by
  unfold readdir_reposition
  split
  · exact seekdir_entries _ _
  · rfl

theorem reposition_offset (offset : Int) (d : xmp_dirp) :
    (readdir_reposition offset d).offset = offset := by
  unfold readdir_reposition
  split
  · rfl
  · rename_i h
    simp only [ne_eq, Decidable.not_not] at h
    exact h.symm

theorem reposition_inv (offset : Int) (d : xmp_dirp) (h : handle_inv d) :
    handle_inv (readdir_reposition offset d) := by
  unfold readdir_reposition
  split
  · refine ⟨?_, ?_⟩
    · intro e he; simp at he
    · simp only [lpos]
      exact seekdir_pos_congr _ _ _ (seekdir_entries _ _)
  · exact h

/-- A `hello_readdir` call always returns: the fuel of the loop suffices. -/
theorem hello_readdir_spec {σ : Type} (filler : fuse_fill_dir_t σ) (buf : σ) (offset : Int)
    (d : xmp_dirp) :
    ∃ r, hello_readdir filler buf offset d = some r ∧ r.ret = 0 ∧
      r.d.dp.entries = d.dp.entries ∧
      r.d.offset = next_request offset r.accepted ∧
      (r.rejected = none → r.d.entry = none) ∧
      (∀ em, r.rejected = some em → ∃ e, r.d.entry = some e ∧ em = emit_at r.d e) := by
  have hfuel : (readdir_reposition offset d).dp.entries.length
      - (readdir_reposition offset d).dp.pos
      + (if (readdir_reposition offset d).entry.isSome then 1 else 0)
      < d.dp.entries.length + 2 := by
    rw [reposition_entries]
    split <;> omega
  obtain ⟨r, hr, hret, hents, hcur, hnone, hsome⟩ :=
    readdir_loop_spec filler (d.dp.entries.length + 2) (readdir_reposition offset d) buf hfuel
  refine ⟨r, hr, hret, ?_, ?_, hnone, hsome⟩
  · rw [hents, reposition_entries]
  · rw [hcur, reposition_offset]

theorem getLast?_map_take_drop (l : List dirent) (p k : Nat) (acc : List emission)
    (hk : acc.length = k) (hacc : acc = ((l.drop p).take k).map emit_of) (hpos : 0 < k) :
    ∃ e, l[p + (k - 1)]? = some e ∧ acc.getLast? = some (emit_of e) := by
  have h1 : acc.getLast? = acc[k - 1]? := by
    rw [List.getLast?_eq_getElem?, hk]
  have h2 : acc[k - 1]? = (l[p + (k - 1)]?).map emit_of := by
    rw [hacc, List.getElem?_map, List.getElem?_take_of_lt (by omega), List.getElem?_drop]
  have h3 : k - 1 < acc.length := by omega
  have h4 : acc[k - 1]? = some acc[k - 1] := List.getElem?_eq_getElem h3
  rw [h2] at h4
  cases hl : l[p + (k - 1)]? with
  | none => rw [hl] at h4; simp at h4
  | some e =>
    refine ⟨e, rfl, ?_⟩
    rw [h1, h2, hl]
    rfl

/-- A `hello_readdir` call keeps the handle invariant on a well-formed stream. -/
theorem hello_readdir_inv {σ : Type} (filler : fuse_fill_dir_t σ) (buf : σ) (offset : Int)
    (d : xmp_dirp) (r : readdir_result σ) (hwf : d.dp.wf) (hinv : handle_inv d)
    (hr : hello_readdir filler buf offset d = some r) : handle_inv r.d := by
  obtain ⟨r2, hr2, _, hents, hcur, _, _⟩ := hello_readdir_spec filler buf offset d
  rw [hr] at hr2
  simp only [Option.some.injEq] at hr2
  subst hr2
  have hinv1 := reposition_inv offset d hinv
  obtain ⟨hok, hlp, hacc, _, _⟩ :=
    readdir_loop_content filler _ _ buf r hinv1.1 hr
  refine ⟨hok, ?_⟩
  rw [reposition_entries] at hacc
  by_cases hk : r.accepted.length = 0
  · have hnil : r.accepted = [] := List.length_eq_zero.mp hk
    rw [hlp, hk, Nat.add_zero, ← hinv1.2, hcur, hnil, reposition_offset]
    simp only [next_request, List.getLast?_nil]
    apply seekdir_pos_congr
    rw [hents, reposition_entries]
  · obtain ⟨e, hget, hlast⟩ := getLast?_map_take_drop d.dp.entries
      (lpos (readdir_reposition offset d)) r.accepted.length r.accepted rfl hacc (by omega)
    have hoff : r.d.offset = e.d_off := by
      rw [hcur]
      simp [next_request, hlast, emit_of]
    have hwf2 : r.d.dp.wf := by
      unfold DIR.wf at hwf ⊢
      rw [hents]
      exact hwf
    rw [hoff, seekdir_cookie r.d.dp hwf2 _ e (by rw [hents]; exact hget), hlp]
    omega

theorem fresh_handle_inv (entries : List dirent) : handle_inv (fresh_handle entries) := by
  refine ⟨?_, ?_⟩
  · intro e he; simp [fresh_handle] at he
  · simp [fresh_handle, seekdir, lpos]

/-- Every reachable handle is a handle on the same entries and satisfies the
handle invariant, when the cookies of the directory are well formed. -/
theorem reachable_inv (entries : List dirent) (d : xmp_dirp)
    (hwf : DIR.wf { entries := entries, pos := 0 }) (hd : reachable entries d) :
    d.dp.entries = entries ∧ handle_inv d := by
  induction hd with
  | opened => exact ⟨rfl, fresh_handle_inv entries⟩
  | step filler buf offset d r _ hr ih =>
    obtain ⟨hents, hinv⟩ := ih
    have hwfd : d.dp.wf := by
      unfold DIR.wf at hwf ⊢
      rw [hents]
      exact hwf
    refine ⟨?_, hello_readdir_inv filler buf offset d r hwfd hinv hr⟩
    obtain ⟨r2, hr2, _, he2, _⟩ := hello_readdir_spec filler buf offset d
    rw [hr] at hr2
    simp only [Option.some.injEq] at hr2
    subst hr2
    rw [he2, hents]

/-! ## Directory enumeration: a sequence of calls -/

theorem reposition_same (d : xmp_dirp) : readdir_reposition d.offset d = d := by
  simp [readdir_reposition]

/-- The general form of the enumeration theorem, from any handle whose pending
entry is the one read last, for a caller that requests the stored cursor. -/
theorem readdir_calls_content {σ : Type} (filler : fuse_fill_dir_t σ) :
    ∀ (bufs : List σ) (d : xmp_dirp), pending_ok d →
      ∃ rs, readdir_calls filler d d.offset bufs = some rs ∧ rs.length = bufs.length ∧
        all_accepted rs
          = ((d.dp.entries.drop (lpos d)).take (all_accepted rs).length).map emit_of ∧
        ((∃ r ∈ rs, r.rejected = none) →
          d.dp.entries.length ≤ lpos d + (all_accepted rs).length) ∧
        ((∀ r ∈ rs, r.accepted ≠ [] ∨ r.rejected = none) →
          bufs.length ≤ (all_accepted rs).length
            ∨ d.dp.entries.length ≤ lpos d + (all_accepted rs).length) := by
  intro bufs
  induction bufs with
  | nil =>
    intro d _
    refine ⟨[], rfl, rfl, by simp [all_accepted], ?_, ?_⟩
    · rintro ⟨r, hr, _⟩; simp at hr
    · intro _; left; simp
  | cons b bs ih =>
    intro d hok
    obtain ⟨r, hr, _, hents, hcur, _, _⟩ := hello_readdir_spec filler b d.offset d
    have hloop : readdir_loop filler (d.dp.entries.length + 2) d b = some r := by
      have := hr
      unfold hello_readdir at this
      rw [reposition_same] at this
      exact this
    obtain ⟨hokr, hlp, hacc, hnone, _⟩ := readdir_loop_content filler _ d b r hok hloop
    obtain ⟨rs, hrs, hlen, hall, hdone, hprog⟩ := ih r.d hokr
    rw [hcur] at hrs
    refine ⟨r :: rs, ?_, by simp [hlen], ?_, ?_, ?_⟩
    · simp [readdir_calls, hr, hrs]
    · simp only [all_accepted, List.length_append]
      rw [List.take_add, List.map_append, List.drop_drop, ← hacc]
      rw [hents, hlp] at hall
      rw [← hall]
    · rintro ⟨r1, hr1, hrej⟩
      simp only [all_accepted, List.length_append]
      rcases List.mem_cons.mp hr1 with h | h
      · subst h
        have := hnone hrej
        omega
      · have := hdone ⟨r1, h, hrej⟩
        rw [hents, hlp] at this
        omega
    · intro hall2
      simp only [all_accepted, List.length_append, List.length_cons]
      have h1 := hall2 r (List.mem_cons_self _ _)
      have h2 := hprog (fun r1 hr1 => hall2 r1 (List.mem_cons_of_mem _ hr1))
      rw [hents, hlp] at h2
      rcases h1 with h1 | h1
      · have : 0 < r.accepted.length := List.length_pos.mpr h1
        rcases h2 with h2 | h2
        · left; omega
        · right; omega
      · have := hnone h1
        right; omega

/-! ## Directory enumeration: the properties of the specification -/

theorem abc_first_call_eq :
    hello_readdir room_filler 1 0 (fresh_handle abc) = some abc_first_call := by
  decide

/-- C1: on a freshly opened handle, for every sink and every sequence of calls in
which the first call requests offset 0 and each later call requests the next
offset of the last accepted entry, every call returns, and the entries accepted
across all calls are an initial segment of the stream (each once, none skipped,
in stream order); they are exactly the entries of the stream as soon as one call
ran to the end of the stream, which happens within as many calls as the stream
has entries when the sink accepts at least one entry in every call that it cuts
short. -/
theorem readdir_sequence_enumerates_stream {σ : Type} (filler : fuse_fill_dir_t σ)
    (entries : List dirent) (bufs : List σ) :
    ∃ rs, readdir_calls filler (fresh_handle entries) 0 bufs = some rs ∧
      rs.length = bufs.length ∧
      (∃ k, all_accepted rs = (entries.take k).map emit_of) ∧
      ((∃ r ∈ rs, r.rejected = none) → all_accepted rs = entries.map emit_of) ∧
      ((∀ r ∈ rs, r.accepted ≠ [] ∨ r.rejected = none) → entries.length ≤ bufs.length →
        all_accepted rs = entries.map emit_of) := by
  obtain ⟨rs, hrs, hlen, hall, hdone, hprog⟩ :=
    readdir_calls_content filler bufs (fresh_handle entries) (fresh_handle_inv entries).1
  have hl0 : lpos (fresh_handle entries) = 0 := rfl
  have he0 : (fresh_handle entries).dp.entries = entries := rfl
  rw [hl0, he0] at hall hdone hprog
  simp only [List.drop_zero, Nat.zero_add] at hall hdone hprog
  have hfull : entries.length ≤ (all_accepted rs).length →
      all_accepted rs = entries.map emit_of := by
    intro h
    rw [hall, List.take_of_length_le h]
  have hle : (all_accepted rs).length ≤ entries.length := by
    have := congrArg List.length hall
    simp only [List.length_map, List.length_take] at this
    omega
  refine ⟨rs, hrs, hlen, ⟨_, hall⟩, fun h => hfull (hdone h), ?_⟩
  intro hp hn
  rcases hprog hp with h | h
  · exact hfull (by omega)
  · exact hfull h

/-- Witness for C1 on the directory `abc` with a sink that takes one entry per
call: three calls deliver `a`, `b`, `c`. -/
theorem readdir_sequence_enumerates_stream_witness :
    ∃ rs, readdir_calls room_filler (fresh_handle abc) 0 [1, 1, 1] = some rs ∧
      (∃ r ∈ rs, r.rejected = none) ∧
      (∀ r ∈ rs, r.accepted ≠ [] ∨ r.rejected = none) ∧
      all_accepted rs = abc.map emit_of := by
  obtain ⟨rs, hrs, _, _, hdone, hprog⟩ :=
    readdir_sequence_enumerates_stream room_filler abc [1, 1, 1]
  have hex : ∃ r ∈ rs, r.rejected = none ∧ (∀ r ∈ rs, r.accepted ≠ [] ∨ r.rejected = none) := by
    have hc : ∃ rs2, readdir_calls room_filler (fresh_handle abc) 0 [1, 1, 1] = some rs2 ∧
        ∃ r ∈ rs2, r.rejected = none ∧ (∀ r ∈ rs2, r.accepted ≠ [] ∨ r.rejected = none) := by
      decide
    obtain ⟨rs2, h2, h3⟩ := hc
    rw [hrs] at h2
    simp only [Option.some.injEq] at h2
    subst h2
    exact h3
  obtain ⟨r, hr, hrej, hall⟩ := hex
  exact ⟨rs, hrs, ⟨r, hr, hrej⟩, hall, hprog hall (by decide)⟩

/-- C2: on a directory with well-formed cookies, for every reachable handle state
(whatever its stored cursor and pending entry) and every offset `o` that is the
next offset of entry `i` of the stream, a call with requested offset `o` returns
and the first entry it emits is entry `i + 1` of the stream (it emits nothing
when entry `i` is the last one); when `o` differs from the stored cursor the
stream is repositioned to `o`, the pending entry is discarded and the cursor is
set to `o`. -/
theorem readdir_resumes_after_offset {σ : Type} (filler : fuse_fill_dir_t σ) (buf : σ)
    (entries : List dirent) (d : xmp_dirp) (i : Nat) (e : dirent)
    (hwf : DIR.wf { entries := entries, pos := 0 }) (hd : reachable entries d)
    (hi : entries[i]? = some e) :
    ∃ r, hello_readdir filler buf e.d_off d = some r ∧
      r.emitted.head? = (entries[i + 1]?).map emit_of ∧
      (e.d_off ≠ d.offset →
        readdir_reposition e.d_off d
            = { dp := seekdir d.dp e.d_off, entry := none, offset := e.d_off } ∧
          (seekdir d.dp e.d_off).pos = i + 1) := by
  obtain ⟨hents, hinv⟩ := reachable_inv entries d hwf hd
  have hwfd : d.dp.wf := by
    unfold DIR.wf at hwf ⊢
    rw [hents]
    exact hwf
  have hseek : (seekdir d.dp e.d_off).pos = i + 1 :=
    seekdir_cookie d.dp hwfd i e (by rw [hents]; exact hi)
  obtain ⟨r, hr, _, _, _, _, _⟩ := hello_readdir_spec filler buf e.d_off d
  have hinv1 := reposition_inv e.d_off d hinv
  have hl1 : lpos (readdir_reposition e.d_off d) = i + 1 := by
    rw [← hinv1.2, reposition_offset]
    rw [seekdir_pos_congr d.dp _ _ (reposition_entries _ _)]
    exact hseek
  obtain ⟨_, hlp, hacc, hnone, hsome⟩ :=
    readdir_loop_content filler _ _ buf r hinv1.1 hr
  rw [reposition_entries, hents] at hacc hnone hsome
  rw [hl1] at hlp hacc
  refine ⟨r, hr, ?_, ?_⟩
  · unfold readdir_result.emitted
    cases hk : r.accepted with
    | cons a t =>
      rw [hk] at hacc
      have h1 := congrArg List.head? hacc
      simp only [List.head?_cons, List.head?_map, List.head?_take, List.length_cons,
        Nat.add_one_ne_zero, if_false, List.head?_drop] at h1
      simp [← h1]
    | nil =>
      rw [hk] at hlp
      simp only [List.length_nil, Nat.add_zero] at hlp
      rw [hlp] at hnone hsome
      cases hrej : r.rejected with
      | none =>
        have := hnone hrej
        simp [List.getElem?_eq_none this]
      | some em =>
        obtain ⟨e2, he2, hem⟩ := hsome em hrej
        simp [he2, hem]
  · intro hne
    exact ⟨by simp [readdir_reposition, hne], hseek⟩

/-- Witness for C2: after a call on `abc` that delivered `a` and was stopped at
`b`, a call with the next offset of `a` emits `b` first. -/
theorem readdir_resumes_after_offset_witness :
    DIR.wf { entries := abc, pos := 0 } ∧ reachable abc abc_first_call.d ∧
    abc[0]? = some { d_ino := 11, d_off := 101, d_type := 8, d_name := ['a'] } ∧
    ∃ r, hello_readdir room_filler 5 101 abc_first_call.d = some r ∧
      r.emitted.head? = (abc[1]?).map emit_of :=
  have hwf : DIR.wf { entries := abc, pos := 0 } := by decide
  have hre : reachable abc abc_first_call.d :=
    reachable.step room_filler 1 0 (fresh_handle abc) abc_first_call reachable.opened
      abc_first_call_eq
  have h := readdir_resumes_after_offset room_filler 5 abc abc_first_call.d 0
    { d_ino := 11, d_off := 101, d_type := 8, d_name := ['a'] } hwf hre rfl
  ⟨hwf, hre, rfl, h.elim (fun r hr => ⟨r, hr.1, hr.2.1⟩)⟩

/-- C9: every `hello_readdir` call returns 0 and leaves the stored cursor equal to
the next offset of the last entry the sink accepted during the call, or to the
requested offset when the sink accepted none; when the sink signals stop on an
entry, that entry stays in the pending slot (the cursor was not advanced to its
next offset), and the pending slot is empty after every call that did not end by
a sink stop. -/
theorem readdir_cursor_invariant {σ : Type} (filler : fuse_fill_dir_t σ) (buf : σ)
    (offset : Int) (d : xmp_dirp) :
    ∃ r, hello_readdir filler buf offset d = some r ∧ r.ret = 0 ∧
      r.d.offset = next_request offset r.accepted ∧
      (∀ em, r.rejected = some em → ∃ e, r.d.entry = some e ∧ em = emit_at r.d e) ∧
      (r.d.entry ≠ none → r.rejected ≠ none) ∧
      (∀ entries, DIR.wf { entries := entries, pos := 0 } → reachable entries d →
        ∀ em, r.rejected = some em → r.d.offset ≠ em.off) := by
  obtain ⟨r, hr, hret, _, hcur, hnone, hsome⟩ := hello_readdir_spec filler buf offset d
  refine ⟨r, hr, hret, hcur, hsome, fun h1 h2 => h1 (hnone h2), ?_⟩
  intro entries hwf hd em hem heq
  obtain ⟨hents, hinv⟩ := reachable_inv entries r.d hwf
    (reachable.step filler buf offset d r hd hr)
  obtain ⟨e, he, hee⟩ := hsome em hem
  obtain ⟨p, hp, hpe⟩ := hinv.1 e he
  have hwfr : r.d.dp.wf := by
    unfold DIR.wf at hwf ⊢
    rw [hents]
    exact hwf
  have htell : em.off = e.d_off := by
    rw [hee]
    simp [emit_at, telldir, hp, hpe]
  have h1 := hinv.2
  rw [heq, htell, seekdir_cookie r.d.dp hwfr p e hpe] at h1
  simp [lpos, he, hp] at h1

/-- Witness for C9 on the directory `abc`: the call that accepts `a` and is
stopped at `b` leaves the cursor at the next offset of `a` and `b` pending. -/
theorem readdir_cursor_invariant_witness :
    ∃ r, hello_readdir room_filler 1 0 (fresh_handle abc) = some r ∧
      r.d.offset = 101 ∧ r.d.entry ≠ none ∧ r.rejected ≠ none ∧
      (∀ em, r.rejected = some em → r.d.offset ≠ em.off) := by
  obtain ⟨r, hr, _, hcur, _, hpend, hne⟩ :=
    readdir_cursor_invariant room_filler 1 0 (fresh_handle abc)
  have hr2 := hr
  rw [abc_first_call_eq] at hr2
  simp only [Option.some.injEq] at hr2
  subst hr2
  exact ⟨_, hr, by rw [hcur]; decide, by decide, hpend (by decide),
    hne abc (by decide) reachable.opened⟩

/-! ## Attribute query, open and read -/

theorem to_int32_small (x : Int) (h0 : 0 ≤ x) (h1 : x < 2 ^ 31) : to_int32 x = x := by
  unfold to_int32
  omega

theorem to_int32_neg_one : to_int32 (-1) = -1 := by
  decide

theorem sys_pread_range (os : OS) (fd : Int) (size : Nat) (offset : Int) :
    ((sys_pread os fd size offset).1 = -1 ∧ (sys_pread os fd size offset).2 = []) ∨
    (0 ≤ (sys_pread os fd size offset).1 ∧
      (sys_pread os fd size offset).1 = ((sys_pread os fd size offset).2.length : Int) ∧
      (sys_pread os fd size offset).2.length ≤ min size MAX_RW_COUNT) := by
  unfold sys_pread
  cases os.fdtable fd with
  | none => left; simp
  | some f =>
    cases f with
    | unreadable e => left; simp
    | contents bytes =>
      by_cases ho : offset < 0
      · left; simp [ho]
      · right
        simp only [ho, if_false]
        refine ⟨Int.natCast_nonneg _, ?_, ?_⟩
        · trivial
        · rw [List.length_take]
          omega

/-- C5: `hello_getattr` on the virtual path `/` returns 0 with `S_IFDIR | 0755` as
mode, link count 2 and every other field zero, and calls neither `exists` nor
`stat`, on every system (also one where nothing exists at the target root). -/
theorem getattr_root_synthetic (os : OS) (options : options_t) (fi : fuse_file_info) :
    (hello_getattr os options ['/'] fi).ret = 0 ∧
    (hello_getattr os options ['/'] fi).stbuf
      = { st_dev := 0, st_ino := 0, st_nlink := 2, st_mode := 0o040755, st_uid := 0,
          st_gid := 0, st_rdev := 0, st_size := 0, st_blksize := 0, st_blocks := 0,
          st_atime := 0, st_mtime := 0, st_ctime := 0 } ∧
    (hello_getattr os options ['/'] fi).stbuf.st_mode = S_IFDIR ||| 0o755 ∧
    (hello_getattr os options ['/'] fi).trace = [] := by
  have hr : hello_getattr os options ['/'] fi
      = { ret := 0, stbuf := { stat_zero with st_mode := S_IFDIR ||| 0o755, st_nlink := 2 },
          printed := real_path os options ['/'], trace := [] } := by
    unfold hello_getattr real_path
    rw [if_pos rfl]
  rw [hr]
  exact ⟨rfl, rfl, rfl, rfl⟩

/-- C4, as stated, fails: with nothing at the target root, the real path of `/`
does not exist, yet `hello_getattr` on `/` returns 0, not `-ENOENT`. -/
theorem getattr_root_missing_counterexample :
    empty_os.fs_exists (real_path empty_os data_options ['/']) = false ∧
    (hello_getattr empty_os data_options ['/'] fi_rdonly).ret = 0 ∧
    (hello_getattr empty_os data_options ['/'] fi_rdonly).ret ≠ -ENOENT := by
  decide

/-- C4, amended: for every virtual path whose real path does not exist,
`hello_opendir` and `hello_open` return `-ENOENT`, leave the request unchanged
and make no call besides the existence check (also for the virtual path `/`),
and so does `hello_getattr` for every virtual path other than `/`. -/
theorem missing_path_not_found (os : OS) (options : options_t) (path : List Char)
    (fi : fuse_file_info) (h : os.fs_exists (real_path os options path) = false) :
    (hello_opendir os options path fi).ret = -ENOENT ∧
    (hello_opendir os options path fi).fi = fi ∧
    (hello_opendir os options path fi).trace = [.fs_exists (real_path os options path)] ∧
    (hello_open os options path fi).ret = -ENOENT ∧
    (hello_open os options path fi).fi = fi ∧
    (hello_open os options path fi).trace = [.fs_exists (real_path os options path)] ∧
    (path ≠ ['/'] →
      (hello_getattr os options path fi).ret = -ENOENT ∧
      (hello_getattr os options path fi).trace = [.fs_exists (real_path os options path)]) ∧
    (∀ c ∈ (hello_opendir os options path fi).trace ++ (hello_open os options path fi).trace
        ++ (hello_getattr os options path fi).trace, c.is_underlying = false) := by
  unfold real_path at h
  have hop : (hello_opendir os options path fi)
      = { ret := -ENOENT, fi := fi, trace := [.fs_exists (real_path os options path)] } := by
    simp [hello_opendir, real_path, h]
  have hof : (hello_open os options path fi)
      = { ret := -ENOENT, fi := fi, trace := [.fs_exists (real_path os options path)] } := by
    simp [hello_open, real_path, h]
  rw [hop, hof]
  refine ⟨rfl, rfl, rfl, rfl, rfl, rfl, ?_, ?_⟩
  · intro hne
    simp [hello_getattr, real_path, h, hne]
  · intro c hc
    have hg : (hello_getattr os options path fi).trace = []
        ∨ (hello_getattr os options path fi).trace
          = [.fs_exists (real_path os options path)] := by
      by_cases hp : path = ['/']
      · left; simp [hello_getattr, hp]
      · right; simp [hello_getattr, real_path, h, hp]
    have hmem : c = .fs_exists (real_path os options path) := by
      rcases hg with hg | hg <;> rw [hg] at hc <;> simpa using hc
    rw [hmem]
    rfl

/-- Witness for the amended C4 on a system where nothing exists. -/
theorem missing_path_not_found_witness :
    empty_os.fs_exists (real_path empty_os data_options "/notes.txt".toList) = false ∧
    (hello_opendir empty_os data_options "/notes.txt".toList fi_rdonly).ret = -ENOENT ∧
    (hello_open empty_os data_options "/notes.txt".toList fi_rdonly).ret = -ENOENT ∧
    (hello_getattr empty_os data_options "/notes.txt".toList fi_rdonly).ret = -ENOENT :=
  have h := missing_path_not_found empty_os data_options "/notes.txt".toList fi_rdonly rfl
  ⟨rfl, h.1, h.2.2.2.1, (h.2.2.2.2.2.2.1 (by decide)).1⟩

/-- C3, as stated, fails: a write-only open of a path that does not exist fails
with `-ENOENT`, not with `-EACCES`, in `hello_opendir` and in `hello_open`. -/
theorem write_open_missing_counterexample :
    fi_wronly.flags &&& O_ACCMODE ≠ O_RDONLY ∧
    (hello_opendir empty_os data_options "/notes.txt".toList fi_wronly).ret = -ENOENT ∧
    (hello_opendir empty_os data_options "/notes.txt".toList fi_wronly).ret ≠ -EACCES ∧
    (hello_open empty_os data_options "/notes.txt".toList fi_wronly).ret = -ENOENT ∧
    (hello_open empty_os data_options "/notes.txt".toList fi_wronly).ret ≠ -EACCES := by
  decide

/-- C3, amended: with an access mode other than read-only, `hello_opendir` and
`hello_open` fail on every virtual path, leave the request unchanged and make no
`opendir` or `open` call, only the existence check; the error is `-EACCES` when
the real path exists and `-ENOENT` when it does not. -/
theorem non_rdonly_rejected (os : OS) (options : options_t) (path : List Char)
    (fi : fuse_file_info) (h : fi.flags &&& O_ACCMODE ≠ O_RDONLY) :
    (hello_opendir os options path fi).ret
      = (if os.fs_exists (real_path os options path) then -EACCES else -ENOENT) ∧
    (hello_opendir os options path fi).fi = fi ∧
    (hello_opendir os options path fi).trace = [.fs_exists (real_path os options path)] ∧
    (hello_open os options path fi).ret
      = (if os.fs_exists (real_path os options path) then -EACCES else -ENOENT) ∧
    (hello_open os options path fi).fi = fi ∧
    (hello_open os options path fi).trace = [.fs_exists (real_path os options path)] ∧
    (hello_opendir os options path fi).ret < 0 ∧ (hello_open os options path fi).ret < 0 := by
  cases hex : os.fs_exists (real_path os options path) with
  | false =>
    have hex2 := hex
    unfold real_path at hex2
    simp [hello_opendir, hello_open, real_path, hex2, ENOENT]
  | true =>
    have hex2 := hex
    unfold real_path at hex2
    simp [hello_opendir, hello_open, real_path, hex2, h, EACCES]

/-- Witness for the amended C3: a write-only open of an existing path. -/
theorem non_rdonly_rejected_witness :
    fi_wronly.flags &&& O_ACCMODE ≠ O_RDONLY ∧
    (hello_opendir data_os data_options "/notes.txt".toList fi_wronly).ret = -EACCES ∧
    (hello_open data_os data_options "/notes.txt".toList fi_wronly).ret = -EACCES :=
  have h := non_rdonly_rejected data_os data_options "/notes.txt".toList fi_wronly
    (by decide)
  ⟨by decide, h.1, h.2.2.2.1⟩

/-! ## Path resolution -/

/-- C7: for an existing real path opened read-only, `hello_opendir` fails exactly
when the underlying `opendir` fails, then with the negated `errno` and with the
request unchanged; otherwise it returns 0 and binds to `fi->fh` a new handle that
owns the opened stream, with an empty pending slot and cursor 0. -/
theorem opendir_binds_handle (os : OS) (options : options_t) (path : List Char)
    (fi : fuse_file_info) (hex : os.fs_exists (real_path os options path) = true)
    (hro : fi.flags &&& O_ACCMODE = O_RDONLY) :
    ((hello_opendir os options path fi).ret < 0
      ↔ ∃ e, os.sys_opendir (real_path os options path) = .fail e) ∧
    (∀ e, os.sys_opendir (real_path os options path) = .fail e →
      (hello_opendir os options path fi).ret = -(e.val : Int) ∧
      (hello_opendir os options path fi).fi = fi) ∧
    (∀ entries, os.sys_opendir (real_path os options path) = .ok entries →
      (hello_opendir os options path fi).ret = 0 ∧
      (hello_opendir os options path fi).fi
        = { fi with fh := .dirp os.malloc (fresh_handle entries) } ∧
      (fresh_handle entries).entry = none ∧ (fresh_handle entries).offset = 0 ∧
      (fresh_handle entries).dp = { entries := entries, pos := 0 } ∧
      get_dirp (hello_opendir os options path fi).fi = some (fresh_handle entries)) ∧
    (hello_opendir os options path fi).trace
      = [.fs_exists (real_path os options path), .opendir (real_path os options path)] := by
  have hex2 := hex
  unfold real_path at hex2
  cases hod : os.sys_opendir (real_path os options path) with
  | fail e =>
    have hod2 := hod
    unfold real_path at hod2
    have hr : hello_opendir os options path fi
        = { ret := -(e.val : Int), fi := fi,
            trace := [.fs_exists (real_path os options path),
                      .opendir (real_path os options path)] } := by
      simp [hello_opendir, real_path, hex2, hro, hod2]
    rw [hr]
    refine ⟨⟨fun _ => ⟨e, rfl⟩, fun _ => ?_⟩, ?_, ?_, rfl⟩
    · have := e.property
      simp only
      omega
    · intro e2 he2
      simp only [opendir_result.fail.injEq] at he2
      subst he2
      exact ⟨rfl, rfl⟩
    · intro entries he; simp at he
  | ok entries =>
    have hod2 := hod
    unfold real_path at hod2
    have hr : hello_opendir os options path fi
        = { ret := 0,
            fi := { fi with fh := .dirp os.malloc (fresh_handle entries) },
            trace := [.fs_exists (real_path os options path),
                      .opendir (real_path os options path)] } := by
      simp [hello_opendir, real_path, hex2, hro, hod2, fresh_handle]
    rw [hr]
    refine ⟨⟨fun h => ?_, fun h => ?_⟩, ?_, ?_, rfl⟩
    · simp at h
    · obtain ⟨e, he⟩ := h; simp at he
    · intro e he; simp at he
    · intro entries2 he2
      simp only [opendir_result.ok.injEq] at he2
      subst he2
      exact ⟨rfl, rfl, rfl, rfl, rfl, rfl⟩

/-- Witness for C7: opening the mount root of the scenario read-only binds a
fresh handle on the three entries of `/data/.`. -/
theorem opendir_binds_handle_witness :
    data_os.fs_exists (real_path data_os data_options ['/']) = true ∧
    fi_rdonly.flags &&& O_ACCMODE = O_RDONLY ∧
    (hello_opendir data_os data_options ['/'] fi_rdonly).ret = 0 ∧
    get_dirp (hello_opendir data_os data_options ['/'] fi_rdonly).fi
      = some (fresh_handle abc) :=
  have h := opendir_binds_handle data_os data_options ['/'] fi_rdonly rfl (by decide)
  have h2 := h.2.2.1 abc (by decide)
  ⟨rfl, by decide, h2.1, h2.2.2.2.2.2⟩

/-- C10: for an existing real path and a read-only request, `hello_open` returns 0
and stores the result of the underlying `open(realpath, O_RDONLY)` in `fi->fh`
without checking it; when that `open` fails with `-1` the handler still returns
0, and `fi->fh` holds `-1` converted to `uint64_t`. -/
theorem open_result_unchecked (os : OS) (options : options_t) (path : List Char)
    (fi : fuse_file_info) (hex : os.fs_exists (real_path os options path) = true)
    (hro : fi.flags &&& O_ACCMODE = O_RDONLY) :
    (hello_open os options path fi).ret = 0 ∧
    (hello_open os options path fi).fi
      = { fi with fh := .raw (to_uint64 (os.sys_open (real_path os options path) O_RDONLY)) } ∧
    (hello_open os options path fi).trace
      = [.fs_exists (real_path os options path),
         .open_ (real_path os options path) O_RDONLY] ∧
    (os.sys_open (real_path os options path) O_RDONLY = -1 →
      (hello_open os options path fi).ret = 0 ∧
      (hello_open os options path fi).fi.fh = .raw (2 ^ 64 - 1)) := by
  have hex2 := hex
  unfold real_path at hex2
  have hr : hello_open os options path fi
      = { ret := 0,
          fi := { fi with
            fh := .raw (to_uint64 (os.sys_open (real_path os options path) O_RDONLY)) },
          trace := [.fs_exists (real_path os options path),
                    .open_ (real_path os options path) O_RDONLY] } := by
    simp [hello_open, real_path, hex2, hro]
  rw [hr]
  refine ⟨rfl, rfl, rfl, ?_⟩
  intro hfail
  refine ⟨rfl, ?_⟩
  simp only [hfail]
  rfl

/-- Witness for C10: on the scenario system `open` fails on every path, and
`hello_open` of `/notes.txt` still returns 0. -/
theorem open_result_unchecked_witness :
    data_os.fs_exists (real_path data_os data_options "/notes.txt".toList) = true ∧
    fi_rdonly.flags &&& O_ACCMODE = O_RDONLY ∧
    data_os.sys_open (real_path data_os data_options "/notes.txt".toList) O_RDONLY = -1 ∧
    (hello_open data_os data_options "/notes.txt".toList fi_rdonly).ret = 0 ∧
    (hello_open data_os data_options "/notes.txt".toList fi_rdonly).fi.fh
      = .raw (2 ^ 64 - 1) :=
  have h := open_result_unchecked data_os data_options "/notes.txt".toList fi_rdonly rfl
    (by decide)
  ⟨rfl, by decide, rfl, (h.2.2.2 rfl).1, (h.2.2.2 rfl).2⟩

theorem hello_read_ret (os : OS) (path : List Char) (size : Nat) (offset : Int)
    (fi : fuse_file_info) :
    (hello_read os path size offset fi).ret
      = (if (sys_pread os (to_int32 fi.fh.value) size offset).1 < 0 then -1
         else (sys_pread os (to_int32 fi.fh.value) size offset).1) := by
  have hmax : (MAX_RW_COUNT : Int) < 2 ^ 31 := by decide
  rcases sys_pread_range os (to_int32 fi.fh.value) size offset with ⟨h, _⟩ | ⟨h0, hl, hle⟩
  · simp only [hello_read, h, to_int32_neg_one]
  · have hlt : (sys_pread os (to_int32 fi.fh.value) size offset).1 < 2 ^ 31 := by
      rw [hl]
      have : (sys_pread os (to_int32 fi.fh.value) size offset).2.length ≤ MAX_RW_COUNT := by
        omega
      have h2 : ((sys_pread os (to_int32 fi.fh.value) size offset).2.length : Int)
          ≤ (MAX_RW_COUNT : Int) := by exact_mod_cast this
      omega
    simp only [hello_read]
    rw [to_int32_small _ h0 hlt]

/-- C8: for every handle, size and offset, `hello_read` returns the result `r` of
the underlying `pread` when `r >= 0`, which is the number of bytes stored in the
buffer, at most `size`, and returns `-1` when `r < 0`; it leaves the handle
unchanged, so reads on one handle give the same results in either order.  On a
file the bytes are those from `offset` on, fewer than `size` only at the end of
the file (for sizes one `pread` can transfer); on a file with contents `"hi\n"`,
a read of size 3 at offset 0 returns the 3 bytes `"hi\n"` and a read of size 10
at offset 1 returns the 2 bytes `"i\n"`. -/
theorem read_returns_pread (os : OS) (path : List Char) (size : Nat) (offset : Int)
    (fi : fuse_file_info) :
    (hello_read os path size offset fi).ret
      = (if (sys_pread os (to_int32 fi.fh.value) size offset).1 < 0 then -1
         else (sys_pread os (to_int32 fi.fh.value) size offset).1) ∧
    (hello_read os path size offset fi).buf
      = (sys_pread os (to_int32 fi.fh.value) size offset).2 ∧
    (hello_read os path size offset fi).fi = fi ∧
    (hello_read os path size offset fi).ret ≤ size ∧
    (0 ≤ (hello_read os path size offset fi).ret →
      (hello_read os path size offset fi).ret
        = ((hello_read os path size offset fi).buf.length : Int)) ∧
    (∀ bytes, os.fdtable (to_int32 fi.fh.value) = some (.contents bytes) → 0 ≤ offset →
      (hello_read os path size offset fi).buf
        = (bytes.drop offset.toNat).take (min size MAX_RW_COUNT) ∧
      (hello_read os path size offset fi).ret
        = ((hello_read os path size offset fi).buf.length : Int) ∧
      (size ≤ MAX_RW_COUNT → (hello_read os path size offset fi).ret < size →
        bytes.length ≤ offset.toNat + (hello_read os path size offset fi).buf.length)) ∧
    (∀ size2 offset2,
      hello_read os path size offset (hello_read os path size2 offset2 fi).fi
        = hello_read os path size offset fi) ∧
    (os.fdtable (to_int32 fi.fh.value) = some (.contents ['h', 'i', '\n']) →
      (hello_read os path 3 0 fi).ret = 3 ∧
      (hello_read os path 3 0 fi).buf = ['h', 'i', '\n'] ∧
      (hello_read os path 10 1 fi).ret = 2 ∧
      (hello_read os path 10 1 fi).buf = ['i', '\n']) := by
  have hret := hello_read_ret os path size offset fi
  have hbuf : (hello_read os path size offset fi).buf
      = (sys_pread os (to_int32 fi.fh.value) size offset).2 := rfl
  have hrange := sys_pread_range os (to_int32 fi.fh.value) size offset
  have hfile : ∀ (sz : Nat) (off : Int) (bytes : List Char),
      os.fdtable (to_int32 fi.fh.value) = some (.contents bytes) → 0 ≤ off →
      sys_pread os (to_int32 fi.fh.value) sz off
        = ((((bytes.drop off.toNat).take (min sz MAX_RW_COUNT)).length : Int),
            (bytes.drop off.toNat).take (min sz MAX_RW_COUNT)) := by
    intro sz off bytes hb ho
    unfold sys_pread
    rw [hb]
    simp only
    rw [if_neg (by omega)]
  refine ⟨hret, hbuf, rfl, ?_, ?_, ?_, ?_, ?_⟩
  · rw [hret]
    rcases hrange with ⟨h, _⟩ | ⟨h0, hl, hle⟩
    · rw [h]; simp only [Int.reduceNeg, Int.reduceLT, if_true]; omega
    · rw [if_neg (by omega), hl]
      have : (sys_pread os (to_int32 fi.fh.value) size offset).2.length ≤ size := by omega
      exact_mod_cast this
  · intro hnn
    rw [hret] at hnn ⊢
    rw [hbuf]
    rcases hrange with ⟨h, _⟩ | ⟨h0, hl, hle⟩
    · rw [h] at hnn; simp at hnn
    · rw [if_neg (by omega)]
      exact hl
  · intro bytes hb ho
    have hsp := hfile size offset bytes hb ho
    have hb2 : (hello_read os path size offset fi).buf
        = (bytes.drop offset.toNat).take (min size MAX_RW_COUNT) := by
      rw [hbuf, hsp]
    have hr2 : (hello_read os path size offset fi).ret
        = ((hello_read os path size offset fi).buf.length : Int) := by
      rw [hret, hb2, hsp]
      simp only
      rw [if_neg (by omega)]
    refine ⟨hb2, hr2, ?_⟩
    intro hsz hlt
    rw [hr2] at hlt
    have hlt2 : (hello_read os path size offset fi).buf.length < size := by
      exact_mod_cast hlt
    rw [hb2] at hlt2 ⊢
    rw [List.length_take, List.length_drop] at hlt2 ⊢
    omega
  · intro size2 offset2
    rfl
  · intro hb
    have h1 := hfile 3 0 ['h', 'i', '\n'] hb (by decide)
    have h2 := hfile 10 1 ['h', 'i', '\n'] hb (by decide)
    have hr1 := hello_read_ret os path 3 0 fi
    have hr2 := hello_read_ret os path 10 1 fi
    have hb1 : (hello_read os path 3 0 fi).buf
        = (sys_pread os (to_int32 fi.fh.value) 3 0).2 := rfl
    have hb2 : (hello_read os path 10 1 fi).buf
        = (sys_pread os (to_int32 fi.fh.value) 10 1).2 := rfl
    rw [h1] at hr1 hb1
    rw [h2] at hr2 hb2
    refine ⟨?_, ?_, ?_, ?_⟩
    · rw [hr1]; decide
    · rw [hb1]; decide
    · rw [hr2]; decide
    · rw [hb2]; decide

/-- Witness for C8 on the scenario file, open as descriptor 3: the two reads of
the specification, in both orders. -/
theorem read_returns_pread_witness :
    data_os.fdtable (to_int32 fi_fd3.fh.value) = some (.contents ['h', 'i', '\n']) ∧
    (hello_read data_os [] 3 0 fi_fd3).ret = 3 ∧
    (hello_read data_os [] 3 0 fi_fd3).buf = ['h', 'i', '\n'] ∧
    (hello_read data_os [] 10 1 (hello_read data_os [] 3 0 fi_fd3).fi).ret = 2 ∧
    (hello_read data_os [] 10 1 (hello_read data_os [] 3 0 fi_fd3).fi).buf = ['i', '\n'] ∧
    (hello_read data_os [] 3 0 (hello_read data_os [] 10 1 fi_fd3).fi).buf
      = ['h', 'i', '\n'] :=
  have h := read_returns_pread data_os [] 3 0 fi_fd3
  have h2 := h.2.2.2.2.2.2.2 (by decide)
  ⟨by decide, h2.1, h2.2.1, h2.2.2.1, h2.2.2.2,
    (congrArg read_result.buf (h.2.2.2.2.2.2.1 10 1)).trans h2.2.1⟩

end SortFuse
